import Mathlib

/-!
Shallow embedding of the maker-file-index indexing pipeline
(`src/maker_file_index`): the LightBurn extraction plugin, the file
resolver, the scan orchestrator, the directory grouper and the
directory-page ancestor walk.  Python strings are `List Char`, byte
strings are `List Nat`, filesystem paths are lists of components
(`MFI.Path`), and the filesystem itself (stat results, glob listings,
set iteration order) enters as explicit parameters.
-/

namespace MFI

/-- Python whitespace for `str.strip()` / `str.split()` (ASCII range):
space, tab, newline, carriage return, vertical tab, form feed. -/
def isPySpace (c : Char) : Bool :=
  c = ' ' || c = '\t' || c = '\n' || c = '\r' || c = '\x0b' || c = '\x0c'

/-- Python `s.strip()`: drop leading and trailing whitespace. -/
def pyStrip (s : List Char) : List Char :=
  ((s.dropWhile isPySpace).reverse.dropWhile isPySpace).reverse

/-- Python `s.replace("\r\n", "\n")`: scan left to right, replacing each
non-overlapping occurrence of the pair. -/
def replaceCRLF : List Char → List Char
  | [] => []
  | [c] => [c]
  | c :: d :: rest =>
    if c = '\r' ∧ d = '\n' then '\n' :: replaceCRLF rest
    else c :: replaceCRLF (d :: rest)

/-- Python `s.replace("\r", "\n")` (single-character replace is a map). -/
def crToLf (c : Char) : Char := if c = '\r' then '\n' else c

/-- `notes_text.replace("\r\n", "\n").replace("\r", "\n")`
(`lightburn.py:103`). -/
def normalizeNewlines (s : List Char) : List Char :=
  (replaceCRLF s).map crToLf

/-- `"".join(data_b64.split())`: removing all whitespace
(`lightburn.py:42`). -/
def stripAllWs (s : List Char) : List Char :=
  s.filter (fun c => !isPySpace c)

/-- `pad = (-len(data_b64)) % 4; data_b64 += "=" * pad`
(`lightburn.py:43-45`). -/
def padTo4 (s : List Char) : List Char :=
  s ++ List.replicate ((4 - s.length % 4) % 4) '='

/-- Value of one base64 alphabet character, `none` outside the alphabet. -/
def b64Val (c : Char) : Option Nat :=
  if 'A' ≤ c ∧ c ≤ 'Z' then some (c.toNat - 65)
  else if 'a' ≤ c ∧ c ≤ 'z' then some (c.toNat - 71)
  else if '0' ≤ c ∧ c ≤ '9' then some (c.toNat - 48 + 52)
  else if c = '+' then some 62
  else if c = '/' then some 63
  else none

/-- `base64.b64decode(data, validate=True)`: characters must be from the
base64 alphabet with `=` only as final padding (one or two), length a
multiple of four; decoded 6-bit groups are packed into bytes, surplus
bits of a final partial group are discarded. `none` models the raised
`binascii.Error`. -/
def b64decode : List Char → Option (List Nat)
  | [] => some []
  | a :: b :: c :: d :: rest => do
    let va ← b64Val a
    let vb ← b64Val b
    if c = '=' then
      if d = '=' ∧ rest = [] then some [va * 4 + vb / 16] else none
    else do
      let vc ← b64Val c
      if d = '=' then
        if rest = [] then some [va * 4 + vb / 16, (vb % 16) * 16 + vc / 4]
        else none
      else do
        let vd ← b64Val d
        let tail ← b64decode rest
        some ([va * 4 + vb / 16, (vb % 16) * 16 + vc / 4, (vc % 4) * 64 + vd] ++ tail)
  | _ => none

/-- `_decode_b64` (`lightburn.py:41-49`): strip all whitespace, pad with
`=` to a multiple of four, then decode; a decode failure (`none`) models
the `ValueError` the Python function raises. -/
def decode_b64 (s : List Char) : Option (List Nat) :=
  b64decode (padTo4 (stripAllWs s))

/-- `_sniff_extension` (`lightburn.py:52-61`): inspect the decoded bytes
for PNG, JPEG, GIF, RIFF/WEBP magic numbers, in that order, defaulting
to a generic binary extension. Bytes are `Nat` values below 256. -/
def sniff_extension (blob : List Nat) : String :=
  if [0x89, 0x50, 0x4E, 0x47, 0x0D, 0x0A, 0x1A, 0x0A].isPrefixOf blob then ".png"
  else if [0xff, 0xd8, 0xff].isPrefixOf blob then ".jpg"
  else if [0x47, 0x49, 0x46, 0x38, 0x37, 0x61].isPrefixOf blob
      || [0x47, 0x49, 0x46, 0x38, 0x39, 0x61].isPrefixOf blob then ".gif"
  else if [0x52, 0x49, 0x46, 0x46].isPrefixOf blob
      ∧ (blob.drop 8).take 4 = [0x57, 0x45, 0x42, 0x50] then ".webp"
  else ".bin"

/-- An absolute, resolved filesystem path as its list of components:
`[]` is the filesystem root `/`, `["d", "f.lbrn"]` is `/d/f.lbrn`. -/
abbrev Path := List String

/-- Python `pathlib`'s `p.parent`: drop the last component; the
filesystem root is its own parent. -/
def Path.parent (p : Path) : Path := p.dropLast

/-- Python `pathlib`'s `p.name`: the final component, `""` at the root. -/
def Path.name (p : Path) : String := p.getLast?.getD ""

/-- Python `p.with_name(n)`: replace the final component. -/
def Path.withName (p : Path) (n : String) : Path := p.dropLast ++ [n]

/-- Index of the last `.` in a name, as `name.rfind(".")` finds it. -/
def rfindDot : List Char → Option Nat
  | [] => none
  | c :: rest =>
    match rfindDot rest with
    | some i => some (i + 1)
    | none => if c = '.' then some 0 else none

/-- Python `pathlib`'s `p.stem` on a file name: the name up to its last
`.` when that dot is neither the first nor the last character. -/
def pyStem (n : List Char) : List Char :=
  match rfindDot n with
  | some i => if 0 < i ∧ i < n.length - 1 then n.take i else n
  | none => n

/-- Python `pathlib`'s `p.suffix` on a file name: the part from the last
`.` on, when that dot is neither the first nor the last character. -/
def pySuffix (n : List Char) : List Char :=
  match rfindDot n with
  | some i => if 0 < i ∧ i < n.length - 1 then n.drop i else []
  | none => []

mutual
/-- An `xml.etree.ElementTree` element: tag, attributes, direct text
content (`""` models `text is None`) and child elements in order. -/
inductive XElem : Type where
  | mk (tag : String) (attrs : List (String × String)) (text : String) (children : XForest)
  deriving DecidableEq
/-- The children of an element, in document order. -/
inductive XForest : Type where
  | nil : XForest
  | cons : XElem → XForest → XForest
  deriving DecidableEq
end

def XElem.tag : XElem → String
  | .mk t _ _ _ => t

def XElem.attrs : XElem → List (String × String)
  | .mk _ a _ _ => a

def XElem.text : XElem → String
  | .mk _ _ x _ => x

def XElem.children : XElem → XForest
  | .mk _ _ _ cs => cs

/-- Build a forest from a list of elements. -/
def XForest.ofList : List XElem → XForest
  | [] => .nil
  | e :: es => .cons e (XForest.ofList es)

/-- Python `elem.attrib.get(k) or ""`: the attribute's value, with both a
missing attribute (`None`) and an empty value collapsing to `""`. -/
def attrGet (attrs : List (String × String)) (k : String) : String :=
  match attrs.find? (fun kv => kv.1 = k) with
  | some kv => kv.2
  | none => ""

mutual
/-- First element of the given tag in pre-order document order, the
element itself included (the traversal under `root.iter(tag)`). -/
def findPre (t : String) : XElem → Option XElem
  | .mk tag a x cs => if tag = t then some (.mk tag a x cs) else findPreF t cs
/-- First element of the given tag inside a forest, in document order;
applied to `root.children` this is ElementTree's `root.find(".//" + t)`,
which searches proper descendants only. -/
def findPreF (t : String) : XForest → Option XElem
  | .nil => none
  | .cons e es =>
    match findPre t e with
    | some r => some r
    | none => findPreF t es
end

mutual
/-- All elements of the given tag in pre-order document order, the
element itself included: the list `root.iter(tag)` yields. -/
def iterTag (t : String) : XElem → List XElem
  | .mk tag a x cs => (if tag = t then [XElem.mk tag a x cs] else []) ++ iterTagF t cs
/-- All elements of the given tag inside a forest, in document order. -/
def iterTagF (t : String) : XForest → List XElem
  | .nil => []
  | .cons e es => iterTag t e ++ iterTagF t es
end

/-- Python `elem.find(t)` with a plain tag: first direct child of tag `t`. -/
def findChildTag (t : String) : XForest → Option XElem
  | .nil => none
  | .cons e es => if e.tag = t then some e else findChildTag t es

/-- Payload lookup on one `Thumbnail` element (`lightburn.py:27-36`): the
`Source` attribute, stripped, if non-blank; else the element's own text,
stripped, if non-blank; else the text of a direct `Source` child. -/
def thumbPayload (e : XElem) : Option (List Char) :=
  let b64 := pyStrip ((attrGet e.attrs ("Source")).data)
  if b64 ≠ [] then some b64
  else if pyStrip e.text.data ≠ [] then some (pyStrip e.text.data)
  else
    match findChildTag ("Source") e.children with
    | some src => if pyStrip src.text.data ≠ [] then some (pyStrip src.text.data) else none
    | none => none

/-- First payload among a list of thumbnail elements, in order. -/
def firstPayload : List XElem → Option (List Char)
  | [] => none
  | e :: es =>
    match thumbPayload e with
    | some b => some b
    | none => firstPayload es

/-- `_find_thumbnail_b64` (`lightburn.py:25-38`): scan every `Thumbnail`
element in document order and return the first payload found; `none`
models the `ValueError` raised when the loop finds none. -/
def find_thumbnail_b64 (root : XElem) : Option (List Char) :=
  firstPayload (iterTag ("Thumbnail") root)

/-- Notes extraction of `extract_notes_and_thumbnail`
(`lightburn.py:94-103`): `root.find(".//Notes")`, then the stripped
`Notes` attribute if non-blank, else the element's stripped text; the
result has CRLF and CR normalized to LF and is stripped. -/
def extractNotesText (root : XElem) : List Char :=
  let notes_text : List Char :=
    match findPreF ("Notes") root.children with
    | none => []
    | some el =>
      let attr_val := pyStrip ((attrGet el.attrs ("Notes")).data)
      if attr_val ≠ [] then attr_val else pyStrip el.text.data
  pyStrip (normalizeNewlines notes_text)

/-- Notes extraction following the spec's words, amended: the note text
comes from the first `Notes` element strictly below the document root;
if that element carries a `Notes` attribute that is non-blank, the
attribute's value is the note text, otherwise the element's direct text
content; the result has CRLF and CR converted to LF and is trimmed of
leading and trailing whitespace; no such element yields empty notes. -/
def extractNotesSpec (root : XElem) : List Char :=
  match findPreF ("Notes") root.children with
  | none => []
  | some el =>
    let v :=
      if pyStrip ((attrGet el.attrs ("Notes")).data) ≠ [] then (attrGet el.attrs ("Notes")).data
      else el.text.data
    pyStrip (normalizeNewlines v)

/-- `extract_thumbnail` (`lightburn.py:64-80`) with `output_path=None`
as every caller passes it: find a payload, decode it, name the output
after the source's stem plus the `_thumbnail` marker and the sniffed
extension, and refuse to overwrite an existing file unless permitted.
The parse already happened (the document is given); `destExists` is the
`output_path.exists()` stat; `.error` models the exceptions raised. -/
def extract_thumbnail (root : XElem) (input_path : Path) (destExists overwrite : Bool) :
    Except String Path :=
  match find_thumbnail_b64 root with
  | none => .error ("ValueError: No thumbnail found")
  | some b64 =>
    match decode_b64 b64 with
    | none => .error ("ValueError: Thumbnail base64 decode failed")
    | some blob =>
      let out := Path.withName input_path
        ((pyStem (Path.name input_path).data ++ ("_thumbnail").data
          ++ (sniff_extension blob).data).asString)
      if destExists && !overwrite then .error ("FileExistsError: Output file already exists")
      else .ok out

/-- The record `extract_notes_and_thumbnail` returns
(`lightburn.py:13-18`); `thumbnail_path = none` models the `Path("")`
sentinel. -/
structure LightBurnInfo where
  path : Path
  notes : List Char
  thumbnail_path : Option Path
  error : List Char
  deriving DecidableEq

/-- `extract_notes_and_thumbnail` (`lightburn.py:83-117`): on a parse
error the record carries the error and empty notes; otherwise notes are
extracted, the thumbnail is attempted with every failure swallowed into
a blank `thumbnail_path`, and the `error` field is left empty.
`parsed` is the outcome of `ET.parse(path)`; `destExists` is the
thumbnail target's `exists()` stat. -/
def extract_notes_and_thumbnail (path : Path) (parsed : Except (List Char) XElem)
    (destExists : Bool) (overwrite_thumbnail : Bool) : LightBurnInfo :=
  match parsed with
  | .error e =>
    { path := path, notes := [], thumbnail_path := none,
      error := ("XML parse error: ").data ++ e }
  | .ok root =>
    let notes_text := extractNotesText root
    let thumb_path : Option Path :=
      match extract_thumbnail root path destExists overwrite_thumbnail with
      | .ok p => some p
      | .error _ => none
    { path := path, notes := notes_text, thumbnail_path := thumb_path, error := [] }

/-- `IndexRecord` (`base.py:9-16`): the canonical record of one indexed
file. `thumbnail_path = none` models the `Path("")` sentinel default. -/
structure IndexRecord where
  path : Path
  directory : Path
  notes : List Char
  thumbnail_path : Option Path
  error : List Char
  deriving DecidableEq

/-- Calling the `IndexRecord` dataclass constructor with keyword
arguments: `path` and `directory` have no default, so passing `none`
(the argument omitted at the call site) raises `TypeError`; the other
three fields default to empty. -/
def mkIndexRecord (path : Option Path) (directory : Option Path)
    (notes : List Char) (thumbnail_path : Option Path) (error : List Char) :
    Except String IndexRecord :=
  match path, directory with
  | some p, some d =>
    .ok { path := p, directory := d, notes := notes,
          thumbnail_path := thumbnail_path, error := error }
  | none, _ => .error ("TypeError: missing required argument: path")
  | some _, none => .error ("TypeError: missing required argument: directory")

/-- `LIKELY_EXTS` (`lightburn.py:10`). -/
def LIKELY_EXTS : List String := [".lbrn2", ".lbrn"]

/-- `is_likely_lightburn_project` (`lightburn.py:21-22`): a regular file
whose lowercased suffix is a LightBurn extension; `isFile` is the
filesystem's `path.is_file()` stat. -/
def is_likely_lightburn_project (isFile : Path → Bool) (p : Path) : Bool :=
  isFile p && LIKELY_EXTS.contains ((pySuffix (Path.name p).data).asString.toLower)

/-- `LightBurnPlugin.index` (`lightburn.py:127-134`): run the extraction
and then call `IndexRecord(path=..., notes=..., thumbnail_path=...,
error=...)` — the required `directory` keyword is not passed. -/
def LightBurnPlugin_index (path : Path) (parsed : Except (List Char) XElem)
    (destExists : Bool) : Except String IndexRecord :=
  let info := extract_notes_and_thumbnail path parsed destExists true
  mkIndexRecord (some info.path) none info.notes info.thumbnail_path info.error

/-- `SCADPlugin.index` (`scad.py:14-22`): a placeholder record with
`directory=path.parent` and empty fields. -/
def SCADPlugin_index (path : Path) : Except String IndexRecord :=
  mkIndexRecord (some path) (some (Path.parent path)) [] none []

/-- `STLPlugin.index` (`stl.py:14-22`): a placeholder record with
`directory=path.parent` and empty fields. -/
def STLPlugin_index (path : Path) : Except String IndexRecord :=
  mkIndexRecord (some path) (some (Path.parent path)) [] none []

/-- Python `str(path)` for an absolute path: components joined by `/`
under a leading `/`. -/
def pathStr (p : Path) : String := "/" ++ String.intercalate "/" p

/-- Sort key of `resolve_inputs` (`indexer.py:153,164`):
`str(x).lower()`, with ASCII lowering. -/
def lowerKey (p : Path) : List Char := (pathStr p).data.map Char.toLower

/-- Python string `<=`: lexicographic comparison by code point. -/
def clLe : List Char → List Char → Bool
  | [], _ => true
  | _ :: _, [] => false
  | a :: as, b :: bs => if a = b then clLe as bs else decide (a < b)

/-- Ordering used by the resolver's `sorted(..., key=lambda x:
str(x).lower())`. -/
def pLe (x y : Path) : Prop := clLe (lowerKey x) (lowerKey y) = true

instance : DecidableRel pLe := fun _ _ => instDecidableEqBool _ _

/-- One step of `grouped[r.directory].append(r)` on an association list
that keeps keys in first-appearance order, as a `defaultdict` does. -/
def addToGroup (m : List (Path × List IndexRecord)) (k : Path) (r : IndexRecord) :
    List (Path × List IndexRecord) :=
  match m with
  | [] => [(k, [r])]
  | (k', rs) :: rest =>
    if k' = k then (k', rs ++ [r]) :: rest else (k', rs) :: addToGroup rest k r

/-- `group_by_directory` (`indexer.py:21-27`): partition the records by
their `directory` field, keys in first-appearance order, each group in
insertion order. -/
def group_by_directory (records : List IndexRecord) : List (Path × List IndexRecord) :=
  records.foldl (fun m r => addToGroup m r.directory r) []

/-- Merge an already-grouped bucket with records filtered later: the
shape `lookupGroup` takes after folding more records in. -/
def combineGroup (g : Option (List IndexRecord)) (f : List IndexRecord) :
    Option (List IndexRecord) :=
  match g with
  | some xs => some (xs ++ f)
  | none => if f.isEmpty then none else some f

/-- Lookup in the grouped mapping. -/
def lookupGroup (d : Path) : List (Path × List IndexRecord) → Option (List IndexRecord)
  | [] => none
  | (k, rs) :: rest => if k = d then some rs else lookupGroup d rest

/-- Keys of the grouped mapping. -/
def groupKeys (m : List (Path × List IndexRecord)) : List Path :=
  m.map (fun kv => kv.1)

/-- The upward walk of `write_directory_pages` (`indexer.py:54-62`):
add the current directory; stop after the scan root or a directory that
is its own parent, else continue at the parent. The fuel only encodes
termination — `fuel > cur.length` never runs out, since each step drops
one component. -/
def walkUp (fuel : Nat) (root_dir : Path) (cur : Path) : List Path :=
  match fuel with
  | 0 => []
  | fuel + 1 =>
    cur :: (if cur = root_dir then []
            else if Path.parent cur = cur then []
            else walkUp fuel root_dir (Path.parent cur))

/-- Directories the walk from `d` adds to `all_dirs`. -/
def ancestorsUpTo (root_dir d : Path) : List Path := walkUp (d.length + 1) root_dir d

/-- The `all_dirs` set of `write_directory_pages` (`indexer.py:53-62`),
as the list of directories the walks reach (membership is what the set
retains): every grouped key plus its ancestors up to the scan root. -/
def pageDirs (records : List IndexRecord) (root_dir : Path) : List Path :=
  ((group_by_directory records).map (fun kv => ancestorsUpTo root_dir kv.1)).flatten

/-- The three branches of `resolve_inputs` (`indexer.py:133-164`) as the
filesystem answers them: an existing regular file, an existing directory
with its `glob` listing, or anything else with its `glob.glob` matches. -/
inductive Target : Type where
  | file (p : Path)
  | dir (globbed : List Path)
  | pattern (ms : List Path)

/-- The resolver's exclusion test
`not x.name.endswith("_thumbnail.png")` (`indexer.py:149,160`). -/
def notThumbName (x : Path) : Bool :=
  !(("_thumbnail.png").data.isSuffixOf (Path.name x).data)

/-- A faithful model of building a Python `set` and iterating it: some
duplicate-free enumeration of the elements. Which enumeration a run gets
depends on the process hash seed, so it is a parameter, not a fixed
function. -/
def IsSetEnum (setEnum : List Path → List Path) : Prop :=
  ∀ l : List Path, (setEnum l).Nodup ∧ ∀ x : Path, x ∈ setEnum l ↔ x ∈ l

/-- One possible set enumeration: first occurrences in insertion order. -/
def dedupEnum (l : List Path) : List Path := l.dedup

/-- Another possible set enumeration: the same elements reversed. -/
def revDedupEnum (l : List Path) : List Path := l.dedup.reverse

/-- `resolve_inputs` (`indexer.py:133-164`). `isFile` is the
filesystem's `is_file()` stat, `res` is `Path.resolve()` and `setEnum`
is the run's set-iteration order; the file branch returns the resolved
target, the directory and glob branches filter out non-files and
`_thumbnail.png` names, resolve, deduplicate through the set and sort
case-insensitively by string form. -/
def resolve_inputs (isFile : Path → Bool) (res : Path → Path)
    (setEnum : List Path → List Path) : Target → List Path
  | .file p => [res p]
  | .dir globbed =>
    let files := globbed.filter (fun x => isFile x && notThumbName x)
    List.insertionSort pLe (setEnum (files.map res))
  | .pattern ms =>
    let files := ms.filter (fun m => isFile m && notThumbName m)
    List.insertionSort pLe (setEnum (files.map res))

/-- The `FilePlugin` interface (`base.py:19-29`) as the scan loop uses
it: a handling predicate and an indexing function. -/
structure Plugin where
  can_handle : Path → Bool
  index : Path → IndexRecord

/-- The inner loop of `scan` (`indexer.py:202-211`): try the plugins in
registry order, stop at the first whose `can_handle` is true and return
its record; `none` is the for-else (no plugin claims the path). -/
def dispatchOne : List Plugin → Path → Option IndexRecord
  | [], _ => none
  | pl :: pls, p => if pl.can_handle p then some (pl.index p) else dispatchOne pls p

/-- `scan`'s record collection (`indexer.py:196-213`) over the resolved
paths: append the first claiming plugin's record, skip unclaimed paths. -/
def scanRecords (ps : List Plugin) : List Path → List IndexRecord
  | [] => []
  | p :: rest =>
    match dispatchOne ps p with
    | some r => r :: scanRecords ps rest
    | none => scanRecords ps rest

/-- Records of the spec's testable-properties example tree
`root/A/file1.ext`, `root/B/C/file2.ext`. -/
def exampleRecords : List IndexRecord :=
  [{ path := ["root", "A", "file1.ext"], directory := ["root", "A"],
     notes := [], thumbnail_path := none, error := [] },
   { path := ["root", "B", "C", "file2.ext"], directory := ["root", "B", "C"],
     notes := [], thumbnail_path := none, error := [] }]

end MFI

open MFI

theorem stripAllWs_padTo4 (s : List Char) (h : stripAllWs s = s) :
    stripAllWs (padTo4 s) = padTo4 s := by
  unfold stripAllWs padTo4
  unfold stripAllWs at h
  rw [List.filter_append, h]
  congr 1
  refine List.filter_eq_self.mpr ?_
  intro a ha
  rw [List.eq_of_mem_replicate ha]
  decide

theorem padTo4_length_mod (s : List Char) : (padTo4 s).length % 4 = 0 := by
  simp only [padTo4, List.length_append, List.length_replicate]
  omega

theorem padTo4_idem (s : List Char) : padTo4 (padTo4 s) = padTo4 s := by
  have h := padTo4_length_mod s
  conv_lhs => rw [padTo4]
  rw [h]
  simp

/-- C7: the embedded `_decode_b64` first strips all whitespace, then pads
with `=` to a length multiple of four, then decodes; hence any
whitespace-free payload whose correctly padded form decodes also decodes
unpadded, to the same bytes as its padded form. -/
theorem decode_b64_pads_before_decoding (s : List Char) (bs : List Nat)
    (hws : stripAllWs s = s) (hdec : b64decode (padTo4 s) = some bs) :
    decode_b64 s = some bs ∧ decode_b64 (padTo4 s) = some bs := by
  constructor
  · unfold decode_b64
    rw [hws]
    exact hdec
  · unfold decode_b64
    rw [stripAllWs_padTo4 s hws, padTo4_idem]
    exact hdec

/-- Witness for C7 at the spec's example payload "aGVsbG8", whose padded
form "aGVsbG8=" decodes to the bytes of "hello". -/
theorem decode_b64_pads_before_decoding_witness :
    stripAllWs ("aGVsbG8".data) = "aGVsbG8".data
    ∧ b64decode (padTo4 ("aGVsbG8".data)) = some [104, 101, 108, 108, 111]
    ∧ (decode_b64 ("aGVsbG8".data) = some [104, 101, 108, 108, 111]
       ∧ decode_b64 (padTo4 ("aGVsbG8".data)) = some [104, 101, 108, 108, 111]) :=
  ⟨by decide, by decide, decode_b64_pads_before_decoding _ _ (by decide) (by decide)⟩

/-- C1: `LightBurnPlugin.index` calls the `IndexRecord` constructor
without the required `directory` keyword, so it raises `TypeError` for
every path it claims instead of returning a record with `path` and
`directory` populated; the placeholder SCAD and STL `index` methods do
return records with `directory = path.parent` and never raise. -/
theorem lightburn_index_raises_typeerror :
    (∀ (path : Path) (parsed : Except (List Char) XElem) (destExists : Bool),
      LightBurnPlugin_index path parsed destExists
        = Except.error ("TypeError: missing required argument: directory"))
    ∧ (∀ p : Path, SCADPlugin_index p = Except.ok
        { path := p, directory := Path.parent p, notes := [], thumbnail_path := none, error := [] })
    ∧ (∀ p : Path, STLPlugin_index p = Except.ok
        { path := p, directory := Path.parent p, notes := [], thumbnail_path := none, error := [] }) :=
  ⟨fun _ _ _ => rfl, fun _ => rfl, fun _ => rfl⟩

/-- C2 counterexample: a parseable document carrying notes but no
`Thumbnail` element anywhere: thumbnail extraction fails, the notes are
still returned, and the record's `error` field is empty — not the
non-empty diagnostic the claim requires. -/
theorem thumbnail_failure_error_empty_counterexample :
    (extract_notes_and_thumbnail ["d", "f.lbrn"]
        (.ok (.mk "LightBurnProject" [] "" (.cons (.mk "Notes" [] "hello" .nil) .nil)))
        false true).notes = "hello".data
    ∧ (extract_notes_and_thumbnail ["d", "f.lbrn"]
        (.ok (.mk "LightBurnProject" [] "" (.cons (.mk "Notes" [] "hello" .nil) .nil)))
        false true).error = []
    ∧ find_thumbnail_b64
        (.mk "LightBurnProject" [] "" (.cons (.mk "Notes" [] "hello" .nil) .nil)) = none :=
  ⟨by decide, by decide, by decide⟩

/-- C2 (amended): when the document parses but thumbnail extraction fails
— no thumbnail payload anywhere, an undecodable payload, or a
pre-existing output file without overwrite permission — the returned
record still carries the extracted notes and a blank thumbnail path, but
its `error` field stays empty (the failure is silently swallowed), and
the scan of the remaining paths is unaffected. -/
theorem thumbnail_failure_swallowed (path : Path) (doc : XElem)
    (destExists overwrite : Bool)
    (hfail : find_thumbnail_b64 doc = none
      ∨ (∃ b64, find_thumbnail_b64 doc = some b64 ∧ decode_b64 b64 = none)
      ∨ (destExists = true ∧ overwrite = false)) :
    (extract_notes_and_thumbnail path (.ok doc) destExists overwrite).error = []
    ∧ (extract_notes_and_thumbnail path (.ok doc) destExists overwrite).notes
        = extractNotesText doc
    ∧ (extract_notes_and_thumbnail path (.ok doc) destExists overwrite).thumbnail_path = none
    ∧ ∀ (ps : List Plugin) (rest : List Path),
        scanRecords ps rest <:+ scanRecords ps (path :: rest) := by
  refine ⟨rfl, rfl, ?_, ?_⟩
  · simp only [extract_notes_and_thumbnail]
    rcases hfail with h | ⟨b64, hb, hd⟩ | ⟨he, ho⟩
    · simp [extract_thumbnail, h]
    · simp [extract_thumbnail, hb, hd]
    · subst he; subst ho
      cases hf : find_thumbnail_b64 doc with
      | none => simp [extract_thumbnail, hf]
      | some b =>
        cases hd : decode_b64 b with
        | none => simp [extract_thumbnail, hf, hd]
        | some blob => simp [extract_thumbnail, hf, hd]
  · intro ps rest
    have hc : scanRecords ps (path :: rest)
        = match dispatchOne ps path with
          | some r => r :: scanRecords ps rest
          | none => scanRecords ps rest := rfl
    rw [hc]
    cases dispatchOne ps path with
    | none => exact List.suffix_rfl
    | some r => exact List.suffix_cons r _

/-- Witness for C2's amended theorem: a concrete parseable document with
no thumbnail element. -/
theorem thumbnail_failure_swallowed_witness :
    find_thumbnail_b64 (.mk "P" [] "" (.cons (.mk "Notes" [] "hi" .nil) .nil)) = none
    ∧ ((extract_notes_and_thumbnail ["d", "g.lbrn"]
          (.ok (.mk "P" [] "" (.cons (.mk "Notes" [] "hi" .nil) .nil))) false true).error = []
       ∧ (extract_notes_and_thumbnail ["d", "g.lbrn"]
          (.ok (.mk "P" [] "" (.cons (.mk "Notes" [] "hi" .nil) .nil))) false true).notes
            = extractNotesText (.mk "P" [] "" (.cons (.mk "Notes" [] "hi" .nil) .nil))
       ∧ (extract_notes_and_thumbnail ["d", "g.lbrn"]
          (.ok (.mk "P" [] "" (.cons (.mk "Notes" [] "hi" .nil) .nil))) false true).thumbnail_path
            = none
       ∧ ∀ (ps : List Plugin) (rest : List Path),
          scanRecords ps rest <:+ scanRecords ps ((["d", "g.lbrn"] : Path) :: rest)) :=
  ⟨by decide, thumbnail_failure_swallowed _ _ _ _ (Or.inl (by decide))⟩

theorem isSetEnum_dedupEnum : IsSetEnum dedupEnum :=
  fun l => ⟨List.nodup_dedup l, fun _ => List.mem_dedup⟩

theorem isSetEnum_revDedupEnum : IsSetEnum revDedupEnum :=
  fun l => ⟨by simpa [revDedupEnum] using List.nodup_dedup l,
    fun x => by simp [revDedupEnum, List.mem_dedup]⟩

/-- C3 counterexample: the resolver returns a directory entry named
`a_thumbnail.jpg` — the generated-thumbnail marker with the sniffed
`.jpg` extension — and returns a single-file target even when it is
named `b_thumbnail.png`. -/
theorem resolver_returns_marker_counterexample :
    resolve_inputs (fun _ => true) id dedupEnum (.dir [["d", "a_thumbnail.jpg"]])
      = [["d", "a_thumbnail.jpg"]]
    ∧ sniff_extension [0xff, 0xd8, 0xff, 0x00] = ".jpg"
    ∧ ("_thumbnail" ++ ".jpg").data.isSuffixOf ((Path.name ["d", "a_thumbnail.jpg"]).data) = true
    ∧ resolve_inputs (fun _ => true) id dedupEnum (.file ["d", "b_thumbnail.png"])
      = [["d", "b_thumbnail.png"]] :=
  ⟨by decide, by decide, by decide, by decide⟩

/-- C3 (amended): the resolver's only exclusion is the literal suffix
"_thumbnail.png", and only in the directory and glob-pattern branches:
when resolution does not rename files, no path those branches return has
a name ending in "_thumbnail.png". Markers with the other sniffed
extensions, and a single-file target, are not excluded. -/
theorem resolver_excludes_png_marker (isFile : Path → Bool) (res : Path → Path)
    (setEnum : List Path → List Path) (l : List Path) (x : Path)
    (hse : IsSetEnum setEnum)
    (hres : ∀ y, Path.name (res y) = Path.name y)
    (hx : x ∈ resolve_inputs isFile res setEnum (.dir l)
        ∨ x ∈ resolve_inputs isFile res setEnum (.pattern l)) :
    ("_thumbnail.png").data.isSuffixOf ((Path.name x).data) = false := by
  have key : ∀ z : Path,
      z ∈ List.insertionSort pLe
        (setEnum ((l.filter (fun y => isFile y && notThumbName y)).map res)) →
      ("_thumbnail.png").data.isSuffixOf ((Path.name z).data) = false := by
    intro z hz
    have hperm := List.perm_insertionSort pLe
      (setEnum ((l.filter (fun y => isFile y && notThumbName y)).map res))
    have hz2 := hperm.mem_iff.mp hz
    have hz3 := ((hse _).2 z).mp hz2
    obtain ⟨y, hy, rfl⟩ := List.mem_map.mp hz3
    have hy2 := (List.mem_filter.mp hy).2
    have hnt : notThumbName y = true := by
      simpa using (Bool.and_elim_right (by simpa using hy2))
    rw [hres y]
    unfold notThumbName at hnt
    simpa using hnt
  rcases hx with h | h
  · exact key x (by simpa [resolve_inputs] using h)
  · exact key x (by simpa [resolve_inputs] using h)

/-- Witness for C3's amended theorem at a concrete one-file directory. -/
theorem resolver_excludes_png_marker_witness :
    IsSetEnum dedupEnum
    ∧ (∀ y : Path, Path.name (id y) = Path.name y)
    ∧ ((["d", "a.lbrn"] : Path) ∈ resolve_inputs (fun _ => true) id dedupEnum
          (.dir [["d", "a.lbrn"]])
        ∨ (["d", "a.lbrn"] : Path) ∈ resolve_inputs (fun _ => true) id dedupEnum
          (.pattern [["d", "a.lbrn"]]))
    ∧ ("_thumbnail.png").data.isSuffixOf ((Path.name (["d", "a.lbrn"] : Path)).data) = false :=
  ⟨isSetEnum_dedupEnum, fun _ => rfl, Or.inl (by decide),
    resolver_excludes_png_marker (fun _ => true) id dedupEnum [["d", "a.lbrn"]] _
      isSetEnum_dedupEnum (fun _ => rfl) (Or.inl (by decide))⟩

/-- C8: the resolver's output on one unchanged directory listing depends
on the set-enumeration order whenever two distinct names share a
lowercased string form: with first-occurrence order the tie comes out
one way, with the reversed order the other way; both orders are valid
set enumerations, so two runs (whose hash seeds shape the set order) can
return different lists. -/
theorem resolver_order_not_deterministic :
    IsSetEnum dedupEnum ∧ IsSetEnum revDedupEnum
    ∧ resolve_inputs (fun _ => true) id dedupEnum
        (.dir [["d", "A.lbrn"], ["d", "a.lbrn"]])
        = [["d", "A.lbrn"], ["d", "a.lbrn"]]
    ∧ resolve_inputs (fun _ => true) id revDedupEnum
        (.dir [["d", "A.lbrn"], ["d", "a.lbrn"]])
        = [["d", "a.lbrn"], ["d", "A.lbrn"]]
    ∧ ([["d", "A.lbrn"], ["d", "a.lbrn"]] : List Path)
        ≠ [["d", "a.lbrn"], ["d", "A.lbrn"]] :=
  ⟨isSetEnum_dedupEnum, isSetEnum_revDedupEnum, by decide, by decide, by decide⟩

theorem scanRecords_filterMap (ps : List Plugin) (files : List Path) :
    scanRecords ps files = files.filterMap (dispatchOne ps) := by
  induction files with
  | nil => rfl
  | cons p rest ih =>
    have hc : scanRecords ps (p :: rest)
        = match dispatchOne ps p with
          | some r => r :: scanRecords ps rest
          | none => scanRecords ps rest := rfl
    rw [hc, List.filterMap_cons]
    cases dispatchOne ps p <;> simp [ih]

theorem dispatchOne_none_iff (ps : List Plugin) (p : Path) :
    dispatchOne ps p = none ↔ ∀ pl ∈ ps, pl.can_handle p = false := by
  induction ps with
  | nil => simp [dispatchOne]
  | cons pl pls ih =>
    cases hcb : pl.can_handle p with
    | true => simp [dispatchOne, hcb]
    | false => simp [dispatchOne, hcb, ih]

theorem dispatchOne_some_first (ps : List Plugin) (p : Path) (r : IndexRecord)
    (h : dispatchOne ps p = some r) :
    ∃ i : Nat, ∃ hi : i < ps.length,
      (ps.get ⟨i, hi⟩).can_handle p = true ∧ r = (ps.get ⟨i, hi⟩).index p
      ∧ ∀ (j : Nat) (hj : j < ps.length), j < i → (ps.get ⟨j, hj⟩).can_handle p = false := by
  induction ps with
  | nil => exact absurd h (by simp [dispatchOne])
  | cons pl pls ih =>
    cases hcb : pl.can_handle p with
    | true =>
      have hred : dispatchOne (pl :: pls) p = some (pl.index p) := by
        simp [dispatchOne, hcb]
      rw [hred] at h
      refine ⟨0, by simp, hcb, (Option.some_inj.mp h).symm, ?_⟩
      intro j hj hlt
      exact absurd hlt (Nat.not_lt_zero j)
    | false =>
      have h' : dispatchOne pls p = some r := by
        simpa [dispatchOne, hcb] using h
      obtain ⟨i, hi, hca, hr, hfirst⟩ := ih h'
      refine ⟨i + 1, by simpa using Nat.succ_lt_succ hi, by simpa using hca,
        by simpa using hr, ?_⟩
      intro j hj hlt
      match j, hj with
      | 0, _ => simpa using hcb
      | j' + 1, hj =>
        have hj' : j' < pls.length := by simpa using Nat.lt_of_succ_lt_succ hj
        have := hfirst j' hj' (Nat.lt_of_succ_lt_succ hlt)
        simpa using this

/-- C4: `scan` dispatches each resolved path to the first plugin in
registry order whose `can_handle` returns true, appends exactly that
plugin's record and tries no later plugin; a path claimed by no plugin
contributes no record and the loop never raises, so the scan is the
filterMap of first-plugin dispatch over the resolved paths. -/
theorem scan_first_claiming_plugin (ps : List Plugin) (files : List Path) :
    scanRecords ps files = files.filterMap (dispatchOne ps)
    ∧ (∀ p : Path, dispatchOne ps p = none ↔ ∀ pl ∈ ps, pl.can_handle p = false)
    ∧ (∀ (p : Path) (r : IndexRecord), dispatchOne ps p = some r →
        ∃ i : Nat, ∃ hi : i < ps.length,
          (ps.get ⟨i, hi⟩).can_handle p = true ∧ r = (ps.get ⟨i, hi⟩).index p
          ∧ ∀ (j : Nat) (hj : j < ps.length), j < i → (ps.get ⟨j, hj⟩).can_handle p = false) :=
  ⟨scanRecords_filterMap ps files, fun p => dispatchOne_none_iff ps p,
    fun p r h => dispatchOne_some_first ps p r h⟩

theorem clLe_total : ∀ a b : List Char, clLe a b = true ∨ clLe b a = true
  | [], _ => Or.inl rfl
  | _ :: _, [] => Or.inr rfl
  | a :: as, b :: bs => by
    by_cases h : a = b
    · subst h
      rcases clLe_total as bs with h' | h'
      · exact Or.inl (by simp [clLe, h'])
      · exact Or.inr (by simp [clLe, h'])
    · rcases lt_or_gt_of_ne h with hlt | hgt
      · exact Or.inl (by simp [clLe, h, hlt])
      · exact Or.inr (by simp [clLe, Ne.symm h, hgt])

theorem clLe_trans : ∀ a b c : List Char,
    clLe a b = true → clLe b c = true → clLe a c = true
  | [], _, _, _, _ => rfl
  | _ :: _, [], _, h1, _ => by simp [clLe] at h1
  | _ :: _, _ :: _, [], _, h2 => by simp [clLe] at h2
  | x :: xs, y :: ys, z :: zs, h1, h2 => by
    by_cases hxy : x = y <;> by_cases hyz : y = z
    · subst hxy; subst hyz
      have h1' : clLe xs ys = true := by simpa [clLe] using h1
      have h2' : clLe ys zs = true := by simpa [clLe] using h2
      simpa [clLe] using clLe_trans xs ys zs h1' h2'
    · subst hxy
      have hlt : x < z := by simpa [clLe, hyz] using h2
      simp [clLe, hyz, hlt]
    · subst hyz
      have hlt : x < y := by simpa [clLe, hxy] using h1
      simp [clLe, hxy, hlt]
    · have hl1 : x < y := by simpa [clLe, hxy] using h1
      have hl2 : y < z := by simpa [clLe, hyz] using h2
      have hxz : x < z := lt_trans hl1 hl2
      simp [clLe, ne_of_lt hxz, hxz]

theorem sorted_resolve_inputs (isFile : Path → Bool) (res : Path → Path)
    (setEnum : List Path → List Path) (t : Target) :
    List.Sorted pLe (resolve_inputs isFile res setEnum t) := by
  haveI h1 : IsTotal Path pLe := ⟨fun a b => clLe_total _ _⟩
  haveI h2 : IsTrans Path pLe := ⟨fun a b c => clLe_trans _ _ _⟩
  cases t with
  | file p => exact List.sorted_singleton (res p)
  | dir g => exact List.sorted_insertionSort pLe _
  | pattern m => exact List.sorted_insertionSort pLe _

theorem find_thumbnail_none_of_no_elem (doc : XElem)
    (h : iterTag ("Thumbnail") doc = []) : find_thumbnail_b64 doc = none := by
  unfold find_thumbnail_b64
  rw [h]
  rfl

theorem resolve_inputs_nodup (isFile : Path → Bool) (res : Path → Path)
    (setEnum : List Path → List Path) (t : Target) (hse : IsSetEnum setEnum) :
    (resolve_inputs isFile res setEnum t).Nodup := by
  cases t with
  | file p => simp [resolve_inputs]
  | dir g =>
    exact ((List.perm_insertionSort pLe _).nodup_iff).mpr (hse _).1
  | pattern m =>
    exact ((List.perm_insertionSort pLe _).nodup_iff).mpr (hse _).1

theorem combineGroup_nil (g : Option (List IndexRecord)) : combineGroup g [] = g := by
  cases g <;> simp [combineGroup]

theorem combineGroup_none_isSome (f : List IndexRecord) :
    (combineGroup none f).isSome = true ↔ f ≠ [] := by
  cases f <;> simp [combineGroup]

theorem groupKeys_cons (k' : Path) (rs : List IndexRecord)
    (rest : List (Path × List IndexRecord)) :
    groupKeys ((k', rs) :: rest) = k' :: groupKeys rest := rfl

theorem lookup_addToGroup (m : List (Path × List IndexRecord)) (k : Path)
    (r : IndexRecord) (d : Path) :
    lookupGroup d (addToGroup m k r)
      = if k = d then some (((lookupGroup d m).getD []) ++ [r]) else lookupGroup d m := by
  induction m with
  | nil =>
    simp only [addToGroup, lookupGroup]
    by_cases h : k = d <;> simp [h]
  | cons kv rest ih =>
    obtain ⟨k', rs⟩ := kv
    by_cases h1 : k' = k
    · subst h1
      simp only [addToGroup, if_pos rfl]
      by_cases h2 : k' = d <;> simp [lookupGroup, h2]
    · simp only [addToGroup, if_neg h1]
      by_cases h2 : k' = d
      · subst h2
        have hkd : k ≠ k' := fun hh => h1 hh.symm
        simp [lookupGroup, hkd]
      · simp [lookupGroup, h2, ih]

theorem lookupGroup_fold (rs : List IndexRecord) :
    ∀ (m : List (Path × List IndexRecord)) (d : Path),
      lookupGroup d (rs.foldl (fun acc r => addToGroup acc r.directory r) m)
        = combineGroup (lookupGroup d m) (rs.filter (fun r => r.directory = d)) := by
  induction rs with
  | nil => intro m d; simp [combineGroup_nil]
  | cons r rest ih =>
    intro m d
    rw [List.foldl_cons, ih, lookup_addToGroup]
    by_cases h : r.directory = d
    · rw [if_pos h, List.filter_cons_of_pos (by simp [h])]
      cases hg : lookupGroup d m <;> simp [combineGroup]
    · rw [if_neg h, List.filter_cons_of_neg (by simp [h])]

theorem keys_addToGroup (m : List (Path × List IndexRecord)) (k : Path) (r : IndexRecord) :
    groupKeys (addToGroup m k r)
      = if k ∈ groupKeys m then groupKeys m else groupKeys m ++ [k] := by
  induction m with
  | nil => simp [addToGroup, groupKeys]
  | cons kv rest ih =>
    obtain ⟨k', rs⟩ := kv
    by_cases h : k' = k
    · subst h
      simp [addToGroup, groupKeys_cons]
    · have hne : k ≠ k' := fun hh => h hh.symm
      simp only [addToGroup, if_neg h, groupKeys_cons, ih]
      by_cases h2 : k ∈ groupKeys rest
      · rw [if_pos h2, if_pos (by simp [groupKeys_cons, List.mem_cons, h2])]
      · rw [if_neg h2, if_neg (by simp [groupKeys_cons, List.mem_cons, hne, h2])]
        simp

theorem keys_nodup_addToGroup (m : List (Path × List IndexRecord)) (k : Path)
    (r : IndexRecord) (h : (groupKeys m).Nodup) : (groupKeys (addToGroup m k r)).Nodup := by
  rw [keys_addToGroup]
  by_cases h2 : k ∈ groupKeys m
  · rw [if_pos h2]; exact h
  · rw [if_neg h2]
    simp [List.nodup_append, h, h2]

theorem keys_nodup_fold (rs : List IndexRecord) :
    ∀ m, (groupKeys m).Nodup →
      (groupKeys (rs.foldl (fun acc r => addToGroup acc r.directory r) m)).Nodup := by
  induction rs with
  | nil => intro m h; simpa using h
  | cons r rest ih =>
    intro m h
    rw [List.foldl_cons]
    exact ih _ (keys_nodup_addToGroup _ _ _ h)

theorem lookupGroup_isSome_iff (d : Path) (m : List (Path × List IndexRecord)) :
    (lookupGroup d m).isSome = true ↔ d ∈ groupKeys m := by
  induction m with
  | nil => simp [lookupGroup, groupKeys]
  | cons kv rest ih =>
    obtain ⟨k', rs⟩ := kv
    by_cases h : k' = d
    · simp [lookupGroup, groupKeys_cons, h, ih]
    · have hne : d ≠ k' := fun hh => h hh.symm
      simp [lookupGroup, groupKeys_cons, h, hne, ih]

theorem lookup_group_by_directory (rs : List IndexRecord) (d : Path) :
    lookupGroup d (group_by_directory rs)
      = combineGroup none (rs.filter (fun r => r.directory = d)) := by
  have := lookupGroup_fold rs [] d
  simpa [group_by_directory, lookupGroup] using this

theorem mem_groupKeys_iff (rs : List IndexRecord) (d : Path) :
    d ∈ groupKeys (group_by_directory rs) ↔ ∃ r ∈ rs, r.directory = d := by
  rw [← lookupGroup_isSome_iff, lookup_group_by_directory, combineGroup_none_isSome]
  constructor
  · intro hne
    obtain ⟨a, ha⟩ := List.exists_mem_of_ne_nil _ hne
    have hm := List.mem_filter.mp ha
    exact ⟨a, hm.1, by simpa using hm.2⟩
  · rintro ⟨r, hr, hd⟩
    intro hnil
    have hmem : r ∈ rs.filter (fun r => r.directory = d) :=
      List.mem_filter.mpr ⟨hr, by simp [hd]⟩
    rw [hnil] at hmem
    cases hmem

theorem flatten_addToGroup (m : List (Path × List IndexRecord)) (k : Path)
    (r : IndexRecord) :
    List.Perm (((addToGroup m k r).map (fun kv => kv.2)).flatten)
      ((m.map (fun kv => kv.2)).flatten ++ [r]) := by
  induction m with
  | nil => simp [addToGroup]
  | cons kv rest ih =>
    obtain ⟨k', rs⟩ := kv
    by_cases h : k' = k
    · subst h
      simp only [addToGroup, eq_self_iff_true, if_true, List.map_cons, List.flatten_cons]
      rw [List.append_assoc, List.append_assoc]
      exact (@List.perm_append_comm _ [r] ((rest.map (fun kv => kv.2)).flatten)).append_left rs
    · simp only [addToGroup, if_neg h, List.map_cons, List.flatten_cons]
      have h1 : List.Perm (rs ++ ((addToGroup rest k r).map (fun kv => kv.2)).flatten)
          (rs ++ ((rest.map (fun kv => kv.2)).flatten ++ [r])) := ih.append_left rs
      rw [← List.append_assoc] at h1
      exact h1

theorem flatten_group_fold (rs : List IndexRecord) :
    ∀ m : List (Path × List IndexRecord),
      List.Perm ((((rs.foldl (fun acc r => addToGroup acc r.directory r) m)).map
          (fun kv => kv.2)).flatten)
        ((m.map (fun kv => kv.2)).flatten ++ rs) := by
  induction rs with
  | nil => intro m; simp
  | cons r rest ih =>
    intro m
    rw [List.foldl_cons]
    have h1 := ih (addToGroup m r.directory r)
    have h2 := (flatten_addToGroup m r.directory r).append_right rest
    have h3 := h1.trans h2
    rw [List.append_assoc] at h3
    exact h3

/-- C9: `group_by_directory` is an exact partition of its input: looking
up any directory yields precisely the input records whose `directory`
field equals it, in input order (an absent key means no record owns that
directory), the keys are distinct, a directory is a key exactly when at
least one record owns it, and the groups concatenated are a permutation
of the input — so no record is dropped, duplicated or misfiled. -/
theorem group_by_directory_partition (rs : List IndexRecord) :
    (∀ d : Path, lookupGroup d (group_by_directory rs)
        = combineGroup none (rs.filter (fun r => r.directory = d)))
    ∧ (groupKeys (group_by_directory rs)).Nodup
    ∧ (∀ d : Path, d ∈ groupKeys (group_by_directory rs) ↔ ∃ r ∈ rs, r.directory = d)
    ∧ List.Perm (((group_by_directory rs).map (fun kv => kv.2)).flatten) rs :=
  ⟨fun d => lookup_group_by_directory rs d,
    keys_nodup_fold rs [] (by simp [groupKeys]),
    fun d => mem_groupKeys_iff rs d,
    by simpa [group_by_directory] using flatten_group_fold rs []⟩

theorem pyStrip_nil_of_allWS (l : List Char) (h : ∀ c ∈ l, isPySpace c = true) :
    pyStrip l = [] := by
  unfold pyStrip
  rw [List.dropWhile_eq_nil_iff.mpr h]
  simp

theorem pyStrip_decomp (l : List Char) :
    ∃ L T, l = L ++ pyStrip l ++ T
      ∧ (∀ c ∈ L, isPySpace c = true) ∧ (∀ c ∈ T, isPySpace c = true) := by
  refine ⟨l.takeWhile isPySpace,
    ((l.dropWhile isPySpace).reverse.takeWhile isPySpace).reverse, ?_, ?_, ?_⟩
  · conv_lhs => rw [← List.takeWhile_append_dropWhile isPySpace l]
    rw [List.append_assoc]
    congr 1
    set u := l.dropWhile isPySpace with hu
    conv_lhs => rw [← List.reverse_reverse u,
      ← List.takeWhile_append_dropWhile isPySpace u.reverse]
    rw [List.reverse_append]
    rfl
  · intro c hc
    exact List.mem_takeWhile_imp hc
  · intro c hc
    rw [List.mem_reverse] at hc
    exact List.mem_takeWhile_imp hc

theorem dropWhile_append_left_nil {p : Char → Bool} (L w : List Char)
    (h : L.dropWhile p = []) : (L ++ w).dropWhile p = w.dropWhile p := by
  rw [List.dropWhile_append, h]
  simp

theorem dropWhile_append_left_ne {p : Char → Bool} (y T : List Char)
    (h : y.dropWhile p ≠ []) : (y ++ T).dropWhile p = y.dropWhile p ++ T := by
  rw [List.dropWhile_append]
  simp only [List.isEmpty_iff]
  rw [if_neg h]

theorem pyStrip_flank (L T y : List Char)
    (hL : ∀ c ∈ L, isPySpace c = true) (hT : ∀ c ∈ T, isPySpace c = true) :
    pyStrip (L ++ y ++ T) = pyStrip y := by
  by_cases hy : ∀ c ∈ y, isPySpace c = true
  · rw [pyStrip_nil_of_allWS y hy]
    apply pyStrip_nil_of_allWS
    intro c hc
    rcases List.mem_append.mp hc with hc1 | hc1
    · rcases List.mem_append.mp hc1 with hc2 | hc2
      · exact hL c hc2
      · exact hy c hc2
    · exact hT c hc1
  · have hdy : y.dropWhile isPySpace ≠ [] := fun h0 => hy (List.dropWhile_eq_nil_iff.mp h0)
    have hL0 : L.dropWhile isPySpace = [] := List.dropWhile_eq_nil_iff.mpr hL
    have hT0 : T.reverse.dropWhile isPySpace = [] := by
      refine List.dropWhile_eq_nil_iff.mpr ?_
      intro c hc
      rw [List.mem_reverse] at hc
      exact hT c hc
    rw [List.append_assoc]
    unfold pyStrip
    rw [dropWhile_append_left_nil L (y ++ T) hL0, dropWhile_append_left_ne y T hdy,
      List.reverse_append, dropWhile_append_left_nil T.reverse _ hT0]

theorem dropWhile_head_false {p : Char → Bool} : ∀ (l : List Char) (c : Char),
    (l.dropWhile p).head? = some c → p c = false
  | [], c, h => by simp [List.dropWhile] at h
  | x :: xs, c, h => by
    rw [List.dropWhile_cons] at h
    by_cases hx : p x = true
    · rw [if_pos hx] at h
      exact dropWhile_head_false xs c h
    · rw [if_neg hx] at h
      simp only [List.head?_cons, Option.some_inj] at h
      subst h
      exact Bool.eq_false_iff.mpr hx

theorem getLast?_of_isSuf {l w : List Char} (h : l <:+ w) (hne : l ≠ []) :
    l.getLast? = w.getLast? := by
  obtain ⟨pre, rfl⟩ := h
  rw [List.getLast?_append]
  rcases hl : l.getLast? with _ | c
  · exact absurd (List.getLast?_eq_none_iff.mp hl) hne
  · rfl

theorem pyStrip_head_not_ws (l : List Char) (c : Char)
    (h : (pyStrip l).head? = some c) : isPySpace c = false := by
  unfold pyStrip at h
  rw [List.head?_reverse] at h
  have hvne : (l.dropWhile isPySpace).reverse.dropWhile isPySpace ≠ [] := by
    intro h0
    rw [h0] at h
    cases h
  rw [getLast?_of_isSuf (List.dropWhile_suffix _) hvne, List.getLast?_reverse] at h
  exact dropWhile_head_false l c h

theorem pyStrip_getLast_not_ws (l : List Char) (c : Char)
    (h : (pyStrip l).getLast? = some c) : isPySpace c = false := by
  unfold pyStrip at h
  rw [List.getLast?_reverse] at h
  exact dropWhile_head_false _ c h

theorem replaceCRLF_append_of_head : ∀ (a b : List Char), b.head? ≠ some '\n' →
    replaceCRLF (a ++ b) = replaceCRLF a ++ replaceCRLF b
  | [], b, _ => by simp [show replaceCRLF [] = [] from rfl]
  | [c], b, hb => by
    cases b with
    | nil => simp [show replaceCRLF [] = [] from rfl]
    | cons d rest =>
      have hd : d ≠ '\n' := by
        intro h0
        subst h0
        exact hb rfl
      show replaceCRLF (c :: d :: rest) = replaceCRLF [c] ++ replaceCRLF (d :: rest)
      rw [show replaceCRLF (c :: d :: rest)
          = if c = '\r' ∧ d = '\n' then '\n' :: replaceCRLF rest
            else c :: replaceCRLF (d :: rest) from rfl]
      rw [if_neg (by rintro ⟨_, h2⟩; exact hd h2)]
      rfl
  | c :: d :: rest, b, hb => by
    show replaceCRLF (c :: d :: (rest ++ b)) = replaceCRLF (c :: d :: rest) ++ replaceCRLF b
    rw [show replaceCRLF (c :: d :: (rest ++ b))
        = if c = '\r' ∧ d = '\n' then '\n' :: replaceCRLF (rest ++ b)
          else c :: replaceCRLF (d :: (rest ++ b)) from rfl]
    rw [show replaceCRLF (c :: d :: rest)
        = if c = '\r' ∧ d = '\n' then '\n' :: replaceCRLF rest
          else c :: replaceCRLF (d :: rest) from rfl]
    by_cases h : c = '\r' ∧ d = '\n'
    · rw [if_pos h, if_pos h, replaceCRLF_append_of_head rest b hb]
      rfl
    · rw [if_neg h, if_neg h,
        show d :: (rest ++ b) = (d :: rest) ++ b from rfl,
        replaceCRLF_append_of_head (d :: rest) b hb]
      rfl

theorem replaceCRLF_append_of_getLast : ∀ (a b : List Char), a.getLast? ≠ some '\r' →
    replaceCRLF (a ++ b) = replaceCRLF a ++ replaceCRLF b
  | [], b, _ => by simp [show replaceCRLF [] = [] from rfl]
  | [c], b, ha => by
    have hc : c ≠ '\r' := by
      intro h0
      subst h0
      exact ha rfl
    cases b with
    | nil => simp [show replaceCRLF [] = [] from rfl]
    | cons d rest =>
      show replaceCRLF (c :: d :: rest) = replaceCRLF [c] ++ replaceCRLF (d :: rest)
      rw [show replaceCRLF (c :: d :: rest)
          = if c = '\r' ∧ d = '\n' then '\n' :: replaceCRLF rest
            else c :: replaceCRLF (d :: rest) from rfl]
      rw [if_neg (by rintro ⟨h1, _⟩; exact hc h1)]
      rfl
  | c :: d :: rest, b, ha => by
    have ha' : (d :: rest).getLast? ≠ some '\r' := by
      rw [← List.getLast?_cons_cons (a := c)]
      exact ha
    show replaceCRLF (c :: d :: (rest ++ b)) = replaceCRLF (c :: d :: rest) ++ replaceCRLF b
    rw [show replaceCRLF (c :: d :: (rest ++ b))
        = if c = '\r' ∧ d = '\n' then '\n' :: replaceCRLF (rest ++ b)
          else c :: replaceCRLF (d :: (rest ++ b)) from rfl]
    rw [show replaceCRLF (c :: d :: rest)
        = if c = '\r' ∧ d = '\n' then '\n' :: replaceCRLF rest
          else c :: replaceCRLF (d :: rest) from rfl]
    by_cases h : c = '\r' ∧ d = '\n'
    · cases rest with
      | nil =>
        obtain ⟨rfl, rfl⟩ := h
        simp only [if_pos (And.intro rfl rfl), List.nil_append]
        rfl
      | cons e rest' =>
        have ha'' : (e :: rest').getLast? ≠ some '\r' := by
          rw [← List.getLast?_cons_cons (a := d)]
          exact ha'
        rw [if_pos h, if_pos h,
          replaceCRLF_append_of_getLast (e :: rest') b ha'']
        rfl
    · rw [if_neg h, if_neg h,
        show d :: (rest ++ b) = (d :: rest) ++ b from rfl,
        replaceCRLF_append_of_getLast (d :: rest) b ha']
      rfl

theorem normalizeNewlines_append_of_head (a b : List Char) (hb : b.head? ≠ some '\n') :
    normalizeNewlines (a ++ b) = normalizeNewlines a ++ normalizeNewlines b := by
  unfold normalizeNewlines
  rw [replaceCRLF_append_of_head a b hb, List.map_append]

theorem normalizeNewlines_append_of_getLast (a b : List Char) (ha : a.getLast? ≠ some '\r') :
    normalizeNewlines (a ++ b) = normalizeNewlines a ++ normalizeNewlines b := by
  unfold normalizeNewlines
  rw [replaceCRLF_append_of_getLast a b ha, List.map_append]

theorem mem_replaceCRLF : ∀ (l : List Char) (c : Char), c ∈ replaceCRLF l →
    c ∈ l ∨ c = '\n'
  | [], c, hc => by simp [replaceCRLF] at hc
  | [x], c, hc => by
    simp only [replaceCRLF, List.mem_singleton] at hc
    subst hc
    exact Or.inl (List.mem_cons_self _ _)
  | x :: d :: rest, c, hc => by
    rw [show replaceCRLF (x :: d :: rest)
        = if x = '\r' ∧ d = '\n' then '\n' :: replaceCRLF rest
          else x :: replaceCRLF (d :: rest) from rfl] at hc
    by_cases h : x = '\r' ∧ d = '\n'
    · rw [if_pos h] at hc
      rcases List.mem_cons.mp hc with rfl | hc2
      · exact Or.inr rfl
      · rcases mem_replaceCRLF rest c hc2 with h1 | h1
        · exact Or.inl (List.mem_cons_of_mem _ (List.mem_cons_of_mem _ h1))
        · exact Or.inr h1
    · rw [if_neg h] at hc
      rcases List.mem_cons.mp hc with rfl | hc2
      · exact Or.inl (List.mem_cons_self _ _)
      · rcases mem_replaceCRLF (d :: rest) c hc2 with h1 | h1
        · exact Or.inl (List.mem_cons_of_mem _ h1)
        · exact Or.inr h1

theorem normalizeNewlines_allWS (l : List Char) (h : ∀ c ∈ l, isPySpace c = true) :
    ∀ c ∈ normalizeNewlines l, isPySpace c = true := by
  intro c hc
  unfold normalizeNewlines at hc
  obtain ⟨c0, hc0, rfl⟩ := List.mem_map.mp hc
  rcases mem_replaceCRLF _ c0 hc0 with h1 | rfl
  · unfold crToLf
    by_cases h2 : c0 = '\r'
    · rw [if_pos h2]
      decide
    · rw [if_neg h2]
      exact h c0 h1
  · decide

theorem pyStrip_normalize_pyStrip (x : List Char) :
    pyStrip (normalizeNewlines (pyStrip x)) = pyStrip (normalizeNewlines x) := by
  obtain ⟨L, T, hx, hL, hT⟩ := pyStrip_decomp x
  by_cases hm : pyStrip x = []
  · rw [hm]
    have hxw : ∀ c ∈ x, isPySpace c = true := by
      intro c hc
      rw [hx, hm] at hc
      rcases List.mem_append.mp hc with hc1 | hc1
      · rcases List.mem_append.mp hc1 with hc2 | hc2
        · exact hL c hc2
        · cases hc2
      · exact hT c hc1
    rw [pyStrip_nil_of_allWS _ (normalizeNewlines_allWS x hxw)]
    rfl
  · have hhead : (pyStrip x ++ T).head? ≠ some '\n' := by
      cases hm2 : pyStrip x with
      | nil => exact absurd hm2 hm
      | cons c cs =>
        intro h0
        have hc : c = '\n' := by simpa using h0
        have hws := pyStrip_head_not_ws x c (by rw [hm2]; rfl)
        rw [hc] at hws
        exact absurd hws (by decide)
    have hlast : (pyStrip x).getLast? ≠ some '\r' := by
      intro h0
      have := pyStrip_getLast_not_ws x '\r' h0
      exact absurd this (by decide)
    conv_rhs => rw [hx]
    rw [List.append_assoc,
      normalizeNewlines_append_of_head L (pyStrip x ++ T) hhead,
      normalizeNewlines_append_of_getLast (pyStrip x) T hlast,
      ← List.append_assoc,
      pyStrip_flank _ _ _ (normalizeNewlines_allWS L hL) (normalizeNewlines_allWS T hT)]

theorem iterTag_eq (t : String) (e : XElem) :
    iterTag t e = (if e.tag = t then [e] else []) ++ iterTagF t e.children := by
  cases e
  rfl

mutual
theorem findPre_none_of_iterTag_nil (t : String) :
    ∀ (e : XElem), iterTag t e = [] → findPre t e = none
  | .mk tag a x cs, h => by
    rw [show iterTag t (.mk tag a x cs)
        = (if tag = t then [XElem.mk tag a x cs] else []) ++ iterTagF t cs from rfl] at h
    obtain ⟨h1, h2⟩ := List.append_eq_nil.mp h
    have htag : ¬tag = t := by
      intro h0
      rw [if_pos h0] at h1
      cases h1
    rw [show findPre t (.mk tag a x cs)
        = if tag = t then some (.mk tag a x cs) else findPreF t cs from rfl,
      if_neg htag]
    exact findPreF_none_of_iterTagF_nil t cs h2
theorem findPreF_none_of_iterTagF_nil (t : String) :
    ∀ (f : XForest), iterTagF t f = [] → findPreF t f = none
  | .nil, _ => rfl
  | .cons e es, h => by
    rw [show iterTagF t (.cons e es) = iterTag t e ++ iterTagF t es from rfl] at h
    obtain ⟨h1, h2⟩ := List.append_eq_nil.mp h
    rw [show findPreF t (.cons e es)
        = (match findPre t e with
           | some r => some r
           | none => findPreF t es) from rfl,
      findPre_none_of_iterTag_nil t e h1]
    exact findPreF_none_of_iterTagF_nil t es h2
end

/-- C6 counterexample: a parseable document whose root element is itself
the only `Notes` element: the first Notes element in the document tree
is the root, carrying text "hello" (which normalization and trimming
would keep as "hello"), yet the code's `root.find(".//Notes")` searches
proper descendants only, so the extracted notes are empty. -/
theorem notes_root_element_skipped_counterexample :
    findPre ("Notes") (.mk "Notes" [] "hello" .nil)
      = some (.mk "Notes" [] "hello" .nil)
    ∧ pyStrip (normalizeNewlines ("hello".data)) = "hello".data
    ∧ extractNotesText (.mk "Notes" [] "hello" .nil) = []
    ∧ (extract_notes_and_thumbnail ["d", "f.lbrn"]
        (.ok (.mk "Notes" [] "hello" .nil)) false true).notes = [] :=
  ⟨by decide, by decide, by decide, by decide⟩

/-- C6 (amended): the extracted notes come from the first `Notes`
element strictly below the document root (the root element itself is
never considered): a non-blank `Notes` attribute wins over the element's
direct text, CRLF and CR become LF, and the result is trimmed — i.e.
the code agrees with the spec-worded extraction everywhere; and a
document with no `Notes` element anywhere yields empty notes and an
empty error. -/
theorem extract_notes_first_descendant (root : XElem) :
    extractNotesText root = extractNotesSpec root
    ∧ (iterTag ("Notes") root = [] →
        ∀ (path : Path) (destExists overwrite : Bool),
          (extract_notes_and_thumbnail path (.ok root) destExists overwrite).notes = []
          ∧ (extract_notes_and_thumbnail path (.ok root) destExists overwrite).error = []) := by
  constructor
  · unfold extractNotesText extractNotesSpec
    cases h : findPreF ("Notes") root.children with
    | none => rfl
    | some el =>
      dsimp only
      by_cases ha : pyStrip ((attrGet el.attrs ("Notes")).data) ≠ []
      · rw [if_pos ha, if_pos ha]
        exact pyStrip_normalize_pyStrip ((attrGet el.attrs ("Notes")).data)
      · rw [if_neg ha, if_neg ha]
        exact pyStrip_normalize_pyStrip el.text.data
  · intro hno path destExists overwrite
    have hch : iterTagF ("Notes") root.children = [] := by
      rw [iterTag_eq] at hno
      exact (List.append_eq_nil.mp hno).2
    have hfind : findPreF ("Notes") root.children = none :=
      findPreF_none_of_iterTagF_nil _ _ hch
    constructor
    · show extractNotesText root = []
      unfold extractNotesText
      rw [hfind]
      rfl
    · rfl

theorem dropLast_isPre (d : Path) : d.dropLast <+: d := by
  rcases eq_or_ne d [] with rfl | hne
  · exact List.prefix_rfl
  · exact ⟨[d.getLast hne], List.dropLast_append_getLast hne⟩

theorem isPre_dropLast {a d : Path} (h : a <+: d) (hlen : a.length < d.length) :
    a <+: d.dropLast := by
  obtain ⟨t, rfl⟩ := h
  have ht : t ≠ [] := by
    intro h0
    subst h0
    simp at hlen
  rw [List.dropLast_append_of_ne_nil a ht]
  exact ⟨t.dropLast, rfl⟩

theorem self_mem_walkUp (fuel : Nat) (root d : Path) (h : 0 < fuel) :
    d ∈ walkUp fuel root d := by
  cases fuel with
  | zero => exact absurd h (lt_irrefl 0)
  | succ n => simp [walkUp]

theorem mem_walkUp_between : ∀ (fuel : Nat) (root a d : Path),
    d.length < fuel → root <+: a → a <+: d → a ∈ walkUp fuel root d := by
  intro fuel
  induction fuel with
  | zero =>
    intro root a d h
    exact absurd h (Nat.not_lt_zero _)
  | succ n ih =>
    intro root a d hlen hra had
    rcases eq_or_ne a d with rfl | hne
    · exact self_mem_walkUp _ _ _ (Nat.succ_pos n)
    · have hlt : a.length < d.length := by
        rcases Nat.lt_or_ge a.length d.length with h | h
        · exact h
        · exact absurd (had.eq_of_length (le_antisymm had.length_le h)) hne
      have hdne : d ≠ [] := by
        intro h0
        subst h0
        simp at hlt
      have hdroot : d ≠ root := by
        intro h0
        apply hne
        apply had.eq_of_length
        have h1 := had.length_le
        have h2 := (h0 ▸ hra : d <+: a).length_le
        omega
      have hpar : Path.parent d ≠ d := by
        simp only [Path.parent]
        intro h0
        have h1 := congrArg List.length h0
        rw [List.length_dropLast] at h1
        have h2 := List.length_pos.mpr hdne
        omega
      have hstep : walkUp (n + 1) root d = d :: walkUp n root (Path.parent d) := by
        simp [walkUp, hdroot, hpar]
      rw [hstep]
      refine List.mem_cons_of_mem _ (ih root a (Path.parent d) ?_ hra ?_)
      · simp only [Path.parent, List.length_dropLast]
        have h2 := List.length_pos.mpr hdne
        omega
      · exact isPre_dropLast had hlt

theorem mem_walkUp_spec : ∀ (fuel : Nat) (root d : Path), root <+: d →
    ∀ m ∈ walkUp fuel root d, root <+: m ∧ m <+: d := by
  intro fuel
  induction fuel with
  | zero =>
    intro root d _ m hm
    simp [walkUp] at hm
  | succ n ih =>
    intro root d hrd m hm
    simp only [walkUp] at hm
    rcases List.mem_cons.mp hm with rfl | hm2
    · exact ⟨hrd, List.prefix_rfl⟩
    · by_cases h1 : d = root
      · rw [if_pos h1] at hm2
        cases hm2
      · rw [if_neg h1] at hm2
        by_cases h2 : Path.parent d = d
        · rw [if_pos h2] at hm2
          cases hm2
        · rw [if_neg h2] at hm2
          have hrd' : root <+: Path.parent d := by
            apply isPre_dropLast hrd
            rcases Nat.lt_or_ge root.length d.length with h | h
            · exact h
            · exact absurd (hrd.eq_of_length (le_antisymm hrd.length_le h))
                (fun hh => h1 hh.symm)
          obtain ⟨hm3, hm4⟩ := ih root (Path.parent d) hrd' m hm2
          exact ⟨hm3, hm4.trans (dropLast_isPre d)⟩

theorem mem_pageDirs (records : List IndexRecord) (root x : Path) :
    x ∈ pageDirs records root
      ↔ ∃ kv ∈ group_by_directory records, x ∈ ancestorsUpTo root kv.1 := by
  simp [pageDirs, List.mem_flatten]

/-- C5: for every non-empty record list whose directories lie under the
scan root, the directory set computed for page generation is
ancestor-closed: it contains every directory owning a record; with every
member directory it contains each ancestor from the scan root down to
that member; and it contains the scan root itself even when the root
owns no direct records. -/
theorem pageDirs_ancestor_closed (records : List IndexRecord) (root : Path)
    (hne : records ≠ [])
    (hunder : ∀ r ∈ records, root <+: r.directory) :
    (∀ r ∈ records, r.directory ∈ pageDirs records root)
    ∧ (∀ d ∈ pageDirs records root, ∀ a : Path, root <+: a → a <+: d →
        a ∈ pageDirs records root)
    ∧ root ∈ pageDirs records root := by
  have hkey : ∀ k, k ∈ groupKeys (group_by_directory records) → root <+: k := by
    intro k hk
    obtain ⟨r, hr, hrd⟩ := (mem_groupKeys_iff records k).mp hk
    exact hrd ▸ hunder r hr
  refine ⟨?_, ?_, ?_⟩
  · intro r hr
    rw [mem_pageDirs]
    have hk : r.directory ∈ groupKeys (group_by_directory records) :=
      (mem_groupKeys_iff records r.directory).mpr ⟨r, hr, rfl⟩
    obtain ⟨kv, hkv, hfst⟩ := List.mem_map.mp hk
    exact ⟨kv, hkv, hfst ▸ self_mem_walkUp _ _ _ (Nat.succ_pos _)⟩
  · intro d hd a hra had
    rw [mem_pageDirs] at hd ⊢
    obtain ⟨kv, hkv, hmem⟩ := hd
    have hrk : root <+: kv.1 := hkey kv.1 (List.mem_map.mpr ⟨kv, hkv, rfl⟩)
    have hdk : d <+: kv.1 := (mem_walkUp_spec _ root kv.1 hrk d hmem).2
    exact ⟨kv, hkv, mem_walkUp_between _ root a kv.1 (Nat.lt_succ_self _) hra (had.trans hdk)⟩
  · rcases hrec : records with _ | ⟨r, rest⟩
    · exact absurd hrec hne
    · rw [mem_pageDirs]
      have hk : r.directory ∈ groupKeys (group_by_directory records) :=
        (mem_groupKeys_iff records r.directory).mpr
          ⟨r, hrec ▸ List.mem_cons_self r rest, rfl⟩
      obtain ⟨kv, hkv, hfst⟩ := List.mem_map.mp hk
      refine ⟨kv, hrec ▸ hkv, ?_⟩
      exact mem_walkUp_between _ root root kv.1 (Nat.lt_succ_self _) List.prefix_rfl
        (hkey kv.1 (List.mem_map.mpr ⟨kv, hkv, rfl⟩))

/-- Witness for C5 at the spec's example tree `root/A/file1.ext`,
`root/B/C/file2.ext`. -/
theorem pageDirs_ancestor_closed_witness :
    (exampleRecords ≠ [])
    ∧ (∀ r ∈ exampleRecords, (["root"] : Path) <+: r.directory)
    ∧ ((∀ r ∈ exampleRecords, r.directory ∈ pageDirs exampleRecords ["root"])
       ∧ (∀ d ∈ pageDirs exampleRecords ["root"], ∀ a : Path,
            (["root"] : Path) <+: a → a <+: d → a ∈ pageDirs exampleRecords ["root"])
       ∧ (["root"] : Path) ∈ pageDirs exampleRecords ["root"]) :=
  ⟨by decide, by decide,
    pageDirs_ancestor_closed exampleRecords ["root"] (by decide) (by decide)⟩

/-- C10: the records `scan` produces over the resolver's output are the
first-plugin dispatch results in exactly the resolver's order with the
unclaimed paths removed, and that resolver order is sorted
case-insensitively by the string form of the path. -/
theorem scan_preserves_resolver_order (isFile : Path → Bool) (res : Path → Path)
    (setEnum : List Path → List Path) (ps : List Plugin) (t : Target) :
    scanRecords ps (resolve_inputs isFile res setEnum t)
      = (resolve_inputs isFile res setEnum t).filterMap (dispatchOne ps)
    ∧ List.Sorted pLe (resolve_inputs isFile res setEnum t) :=
  ⟨scanRecords_filterMap ps _, sorted_resolve_inputs isFile res setEnum t⟩
